import Mathlib

/-!
Verification of the EPUB package-model builder and HTML assembly engine of
`epub-to-pdf` (`src/index.ts`, class `EpubToPdf`), against its natural-language
specification.

The embedding mirrors the source at the level of its own data flow:

* strings are Lean `String`s, and the JavaScript string operations the source
  uses (`String.prototype.includes`, single-occurrence `String.prototype.replace`
  with a string pattern, template-literal concatenation, `path.basename`) are
  modelled by executable functions over the underlying character lists;
* parsed HTML content documents (the values cheerio hands to the source after
  `cheerio.load`) are modelled by an explicit node tree, with serialization
  (`$.html()` / `$('body').html()`) modelled by a renderer;
* the filesystem boundary (`fs.existsSync` + `fs.readFile`) is modelled as a
  partial map from path strings to contents (`none` = the file does not exist
  or cannot be read);
* thrown `Error`s become `Except String`, carrying the exact message.
-/

set_option maxRecDepth 16384

namespace Epub

/-- The slash character (codepoint 47), used by the model of `path.basename`. -/
def slash : Char := Char.ofNat 47

/-- The single-quote character (codepoint 39), as produced and consumed by the
`url(...)` rewriting in `processFontPaths`. -/
def squote : Char := Char.ofNat 39

/-- The double-quote character (codepoint 34). -/
def dquote : Char := Char.ofNat 34

/-- The right-parenthesis character (codepoint 41). -/
def rparen : Char := Char.ofNat 41

/-- Model of JavaScript `haystack.includes(needle)` over character lists:
`true` iff `pat` occurs as a contiguous sublist. -/
def hasSubL (pat : List Char) : List Char → Bool
  | [] => pat.isEmpty
  | c :: cs => pat.isPrefixOf (c :: cs) || hasSubL pat cs

/-- Model of JavaScript `s.includes(pat)`. -/
def hasSubStr (s pat : String) : Bool := hasSubL pat.data s.data

/-- Counts (possibly overlapping) occurrences of `pat`; used only to state
theorems about how often a marker occurs in an assembled document. -/
def countSubL (pat : List Char) : List Char → Nat
  | [] => 0
  | c :: cs => (if pat.isPrefixOf (c :: cs) then 1 else 0) + countSubL pat cs

/-- Number of occurrences of `pat` in `s`. -/
def countSubStr (s pat : String) : Nat := countSubL pat.data s.data

/-- Model of JavaScript `s.replace(pat, repl)` with a string pattern: replaces
the first occurrence only, leaves `s` unchanged when `pat` does not occur. -/
def replaceFirstL (pat repl : List Char) : List Char → List Char
  | [] => []
  | c :: cs =>
      if pat.isPrefixOf (c :: cs) then repl ++ (c :: cs).drop pat.length
      else c :: replaceFirstL pat repl cs

/-- String-level wrapper for `replaceFirstL`. -/
def replaceFirstStr (s pat repl : String) : String :=
  ⟨replaceFirstL pat.data repl.data s.data⟩

/-- Model of node `path.basename` (posix): drop trailing slashes, then keep the
characters after the last remaining slash. -/
def basenameL (cs : List Char) : List Char :=
  ((cs.reverse.dropWhile (fun c => c == slash)).takeWhile (fun c => !(c == slash))).reverse

/-- Model of `path.basename` on strings. -/
def basename (s : String) : String := ⟨basenameL s.data⟩

/-- Model of JavaScript `s.startsWith(pat)`. -/
def strStartsWith (s pat : String) : Bool := pat.data.isPrefixOf s.data

/-- Model of JavaScript `s.endsWith(pat)`. -/
def strEndsWith (s pat : String) : Bool := pat.data.isSuffixOf s.data

example : basename "images/cover.png" = "cover.png" := by decide
example : basename "a/b/" = "b" := by decide
example : basename "" = "" := by decide
example : hasSubStr "abcd" "bc" = true := by decide
example : hasSubStr "abcd" "ca" = false := by decide
example : replaceFirstStr "xAyAz" "A" "B" = "xByAz" := by decide

/-! ## Parsed HTML documents

The source manipulates cheerio documents.  A parsed document (or a body
fragment) is modelled as a tree of element and text nodes; `NodeList` is a
specialised list so that the mutual structure admits direct structural
recursion and induction. -/

mutual
/-- A node of a parsed HTML document: a text node or an element with a tag
name, an attribute list (document order) and child nodes. -/
inductive Node where
  | text (s : String)
  | elem (tag : String) (attrs : List (String × String)) (children : NodeList)
/-- A sequence of sibling nodes. -/
inductive NodeList where
  | nil
  | cons (n : Node) (ns : NodeList)
end

/-- Attribute lookup, as cheerio `$(el).attr(name)`: the first binding wins. -/
def getAttr (attrs : List (String × String)) (name : String) : Option String :=
  (attrs.find? (fun p => p.1 == name)).map (fun p => p.2)

/-- Attribute update, as cheerio `$(el).attr(name, v)`: replaces the value of
the (first) existing binding, appends the binding when absent. -/
def setAttr : List (String × String) → String → String → List (String × String)
  | [], name, v => [(name, v)]
  | (k, w) :: rest, name, v =>
      if k == name then (k, v) :: rest else (k, w) :: setAttr rest name v

/-- Serialization of an attribute list (` key="value"` for each binding), as in
cheerio output.  Values are emitted verbatim; the documents handled by the
engine are taken to carry no double quote inside attribute values. -/
def renderAttrs : List (String × String) → String
  | [] => ""
  | (k, v) :: rest => " " ++ k ++ "=\x22" ++ v ++ "\x22" ++ renderAttrs rest

mutual
/-- Serialization of one node, modelling cheerio `$.html()` output for the
node: text verbatim, elements as `<tag attrs>children</tag>`. -/
def renderNode : Node → String
  | .text s => s
  | .elem tag attrs children =>
      "<" ++ tag ++ renderAttrs attrs ++ ">" ++ renderList children ++ "</" ++ tag ++ ">"
/-- Serialization of a sibling list, modelling `$('body').html()` on a body
whose contents are the given nodes. -/
def renderList : NodeList → String
  | .nil => ""
  | .cons n ns => renderNode n ++ renderList ns
end

mutual
/-- The per-document image rewrite of `createCombinedHtml` (src/index.ts
401-407): for every `img` element, when the `src` attribute is present and
truthy (non-empty), set it to `assets/<basename(src)>`. -/
def rewriteNode : Node → Node
  | .text s => .text s
  | .elem tag attrs children =>
      let attrs :=
        if tag == "img" then
          match getAttr attrs "src" with
          | some src =>
              if src == "" then attrs
              else setAttr attrs "src" ("assets/" ++ basename src)
          | none => attrs
        else attrs
      .elem tag attrs (rewriteList children)
/-- Map of `rewriteNode` over a sibling list (cheerio `$('img').each` visits
every `img` element of the document). -/
def rewriteList : NodeList → NodeList
  | .nil => .nil
  | .cons n ns => .cons (rewriteNode n) (rewriteList ns)
end

mutual
/-- The final image sweep of `createCombinedHtml` (src/index.ts 431-438): for
every `img` element of the combined document, when `src` is present, truthy,
and does not already start with `assets/`, set it to `assets/<basename(src)>`. -/
def sweepNode : Node → Node
  | .text s => .text s
  | .elem tag attrs children =>
      let attrs :=
        if tag == "img" then
          match getAttr attrs "src" with
          | some src =>
              if src == "" then attrs
              else if strStartsWith src "assets/" then attrs
              else setAttr attrs "src" ("assets/" ++ basename src)
          | none => attrs
        else attrs
      .elem tag attrs (sweepList children)
/-- Map of `sweepNode` over a sibling list. -/
def sweepList : NodeList → NodeList
  | .nil => .nil
  | .cons n ns => .cons (sweepNode n) (sweepList ns)
end

mutual
/-- The `src` attribute values of all `img` elements of a node, in document
order (the observer used to state properties about image references). -/
def nodeImgSrcs : Node → List String
  | .text _ => []
  | .elem tag attrs children =>
      (if tag == "img" then
        match getAttr attrs "src" with
        | some src => [src]
        | none => []
      else []) ++ listImgSrcs children
/-- Concatenation of `nodeImgSrcs` over a sibling list. -/
def listImgSrcs : NodeList → List String
  | .nil => []
  | .cons n ns => nodeImgSrcs n ++ listImgSrcs ns
end

/-! ## Package model (`processEpub` and its helpers)

The XML boundary: `xml2js` hands the source loosely-typed attribute records.
The parsed package document is modelled by `OpfPackage`: the metadata fields,
the manifest `<item>` attribute records and the spine `<itemref>` attribute
records, each field `Option`-valued exactly where the source guards with JS
truthiness or `!== 'no'` checks. -/

/-- The resolved converter options (`Required<EpubToPdfOptions>` as built by
the constructor).  `margin` is the decimal rendering of the numeric `margin`
option as interpolated by the template literal in `processCssFiles` (formatting
of JS numbers is not itself modelled; the PDF `format` option never reaches the
package model or assembly and is omitted). -/
structure Options where
  margin : String
  includePageNumbers : Bool
  customCss : String
  preserveOriginalCss : Bool

/-- Mirror of `EpubMetadata` of the source. -/
structure EpubMetadata where
  title : String
  creator : String
  language : String

/-- Mirror of `EpubManifestItem` of the source (`path` is the resolved path). -/
structure EpubManifestItem where
  id : String
  href : String
  mediaType : String
  properties : String
  path : String

/-- Mirror of `EpubSpineItem` of the source. -/
structure EpubSpineItem where
  idref : String
  linear : Bool
  href : String
  path : String

/-- One `<item>` record of the parsed OPF manifest (`item.$`); `properties`
is `Option`-valued because the source applies `item.$.properties || ''`. -/
structure OpfItem where
  id : String
  href : String
  mediaType : String
  properties : Option String

/-- One `<itemref>` record of the parsed OPF spine (`itemref.$`); `linear` is
absent unless the attribute is present. -/
structure OpfItemref where
  idref : String
  linear : Option String

/-- The parsed OPF package document: metadata (each `dc:` field optional),
manifest item records and spine itemref records, in document order. -/
structure OpfPackage where
  title : Option String
  creator : Option String
  language : Option String
  items : List OpfItem
  itemrefs : List OpfItemref

/-- Mirror of `EpubData` of the source. -/
structure EpubData where
  metadata : EpubMetadata
  spine : List EpubSpineItem
  manifest : List EpubManifestItem
  cssContent : String
  fontFiles : List EpubManifestItem
  basePath : String

/-- Model of `path.join(opfDir, href)` as used for resolved paths.  Resolved paths act
as opaque keys into the file stores, so the normalization performed by
`path.join` is not modelled beyond inserting the separator. -/
def joinPath (dir file : String) : String := dir ++ "/" ++ file

/-- Mirror of `extractMetadata` (src/index.ts 197-205): each `dc:` field with its
default. -/
def extractMetadata (opf : OpfPackage) : EpubMetadata :=
  { title := opf.title.getD "Untitled"
  , creator := opf.creator.getD "Unknown Author"
  , language := opf.language.getD "en" }

/-- Mirror of `extractManifest` (src/index.ts 212-229): one `EpubManifestItem` per
`<item>` record, `path` resolved against the OPF directory.  The source
performs no duplicate-id check. -/
def extractManifest (items : List OpfItem) (opfDir : String) : List EpubManifestItem :=
  items.map (fun item =>
    { id := item.id
    , href := item.href
    , mediaType := item.mediaType
    , properties := item.properties.getD ""
    , path := joinPath opfDir item.href })

/-- Model of `Array.prototype.map` with a callback that may `throw`: the first failing
element aborts with its error; otherwise the mapped list is returned. -/
def mapExcept (f : α → Except ε β) : List α → Except ε (List β)
  | [] => .ok []
  | a :: as =>
      match f a with
      | .error e => .error e
      | .ok b =>
          match mapExcept f as with
          | .error e => .error e
          | .ok bs => .ok (b :: bs)

/-- The error message thrown by `extractSpine` for an unresolved `idref`. -/
def spineNotFoundMsg (idref : String) : String :=
  "Invalid EPUB: spine item " ++ idref ++ " not found in manifest"

/-- Mirror of `extractSpine` (src/index.ts 236-256): resolves each `<itemref>` against
the manifest (first entry with matching id); `linear` is `itemref.$.linear
!== 'no'`; throws `spineNotFoundMsg` when no manifest entry matches. -/
def extractSpine (itemrefs : List OpfItemref) (manifest : List EpubManifestItem) :
    Except String (List EpubSpineItem) :=
  mapExcept (fun itemref =>
    match manifest.find? (fun item => item.id == itemref.idref) with
    | some manifestItem =>
        .ok { idref := itemref.idref
            , linear := !(itemref.linear == some "no")
            , href := manifestItem.href
            , path := manifestItem.path }
    | none => .error (spineNotFoundMsg itemref.idref)) itemrefs

/-- The PDF-specific CSS appended unconditionally by `processCssFiles`
(src/index.ts 280-288): the `@page` margin rule and the body reset rule. -/
def pdfCss (margin : String) : String :=
  "\n      @page \x7b\n        margin: " ++ margin ++
  "in;\n      \x7d\n      body \x7b\n        margin: 0;\n        padding: 0;\n      \x7d\n    "

/-- Mirror of `processCssFiles` (src/index.ts 262-291): when `preserveOriginalCss`,
concatenate each stylesheet file that exists (skipping missing ones), then the
custom CSS when truthy, then `pdfCss`.  `cssStore` models the filesystem
(`fs.existsSync` + `fs.readFile`): `none` means the file is absent. -/
def processCssFiles (opts : Options) (cssFiles : List EpubManifestItem)
    (cssStore : String → Option String) : String :=
  let combinedCss :=
    if opts.preserveOriginalCss then
      cssFiles.foldl (fun acc cssFile =>
        match cssStore cssFile.path with
        | some css => acc ++ css ++ "\n"
        | none => acc) ""
    else ""
  let combinedCss := if opts.customCss == "" then combinedCss else combinedCss ++ opts.customCss
  combinedCss ++ pdfCss opts.margin

/-- The package-model building part of `processEpub` (src/index.ts 162-191),
from the parsed OPF document on: metadata, manifest, spine (the only throwing
step of this stage), aggregated CSS and the font-file subset.  The earlier
container/OPF location steps (lines 140-160) are filesystem/XML boundary
plumbing outside this model.  Mirrors the source's media-type tests
(`includes`, `startsWith`, `endsWith`). -/
def buildPackageModel (opf : OpfPackage) (opfDir : String)
    (cssStore : String → Option String) (opts : Options) : Except String EpubData :=
  let metadata := extractMetadata opf
  let manifest := extractManifest opf.items opfDir
  match extractSpine opf.itemrefs manifest with
  | .error e => .error e
  | .ok spine =>
      let cssFiles := manifest.filter (fun item => hasSubStr item.mediaType "css")
      let cssContent := processCssFiles opts cssFiles cssStore
      let fontFiles := manifest.filter (fun item =>
        hasSubStr item.mediaType "font" || hasSubStr item.mediaType "opentype" ||
        strEndsWith item.href ".ttf" || strEndsWith item.href ".otf")
      .ok { metadata := metadata, spine := spine, manifest := manifest
          , cssContent := cssContent, fontFiles := fontFiles, basePath := opfDir }

/-! ## URL rewriting (`processFontPaths`)

The source rewrites with the global regex `url\(['"]?([^'")]+)['"]?\)`.  The
scanner below reproduces the regex engine's behaviour: at each position it
attempts a match (`url(`, an optional quote, a non-empty run of characters
other than quotes and `)`, an optional quote, then `)`); on success it emits
the replacement and resumes after the match, otherwise it emits one character
and advances.  Backtracking inside the optional quotes never rescues a failed
match here (the run is maximal and contains no quote), so the greedy attempt
is exact. -/

/-- Characters admitted by the capture group `[^'")]+`. -/
def urlPathChar (c : Char) : Bool := !(c == squote || c == dquote || c == rparen)

/-- Whether the input starts with a quote (`['"]?` test). -/
def isQuoteHead : List Char → Bool
  | c :: _ => c == squote || c == dquote
  | [] => false

/-- Attempt the part of the regex after the literal `url(`: on success, returns
the captured path together with the number of characters the rest of the match
consumes (optional quote, the run, optional quote, the closing `)`). -/
def urlMatchTail (cs : List Char) : Option (String × Nat) :=
  let q1 := if isQuoteHead cs then 1 else 0
  let cs1 := cs.drop q1
  let run := cs1.takeWhile urlPathChar
  if run.isEmpty then none
  else
    let rest1 := cs1.drop run.length
    let q2 := if isQuoteHead rest1 then 1 else 0
    match rest1.drop q2 with
    | c :: _ => if c == rparen then some (⟨run⟩, q1 + run.length + q2 + 1) else none
    | [] => none

/-- The replacement emitted for each match:
``url('${fontDir}${path.basename(fontPath)}')``. -/
def urlRepl (fontDir p : String) : String :=
  "url(\x27" ++ fontDir ++ basename p ++ "\x27)"

/-- The literal `url(` the regex scans for. -/
def urlPat : List Char := "url(".data

/-- The scanner for `processFontPaths` (src/index.ts 457-463): global
regex-replace of `url\(['"]?([^'")]+)['"]?\)` by
``url('${fontDir}${basename}')``.  The first argument counts characters still
to be consumed silently (the tail of a match already emitted as its
replacement), keeping the recursion structural in the input list. -/
def processFontPathsL (fontDir : String) : Nat → List Char → List Char
  | k + 1, _ :: cs => processFontPathsL fontDir k cs
  | _, [] => []
  | 0, c :: cs =>
      if urlPat.isPrefixOf (c :: cs) then
        match urlMatchTail ((c :: cs).drop 4) with
        | some (p, n) => (urlRepl fontDir p).data ++ processFontPathsL fontDir (4 + n - 1) cs
        | none => c :: processFontPathsL fontDir 0 cs
      else c :: processFontPathsL fontDir 0 cs

/-- Mirror of `processFontPaths` on strings (argument order as in the source). -/
def processFontPaths (css fontDir : String) : String :=
  ⟨processFontPathsL fontDir 0 css.data⟩

example :
    processFontPaths "@font-face \x7b src: url(\x27fonts/a.ttf\x27); \x7d" "assets/" =
      "@font-face \x7b src: url(\x27assets/a.ttf\x27); \x7d" := by decide
example :
    processFontPaths "body \x7b background: url(img/bg.png); \x7d" "assets/" =
      "body \x7b background: url(\x27assets/bg.png\x27); \x7d" := by decide
example : processFontPaths "url()" "assets/" = "url()" := by decide

/-! ## HTML assembly (`createCombinedHtml`, src/index.ts 360-450)

The combined document is built as a string, exactly as in the source: the
document shell, then for each linear spine item whose content file exists the
rendered body content (after the per-document image rewrite), with the
page-break `div` prepended whenever the accumulated HTML already contains
`</section>`; then `</body></html>`; then the page-break CSS is spliced into
the first `</style>` occurrence.

`contentStore` models `fs.existsSync` + `fs.readFile` + `cheerio.load` +
`$('body')` for content documents: it maps a resolved path to the node list
forming the body of the parsed document (`none` when the file is missing, a
body always existing in a cheerio parse).

The final image sweep (lines 431-438: reparse the combined string, rewrite
every `img` whose `src` does not start with `assets/`, reserialize) is applied
to each appended body fragment: in a parse of the combined string, `img`
elements can occur only inside those fragments (the only other interpolated
text sits inside `<title>` and `<style>`, which parse as raw text), and
cosmetic reserialization of the untouched remainder is the identity in this
model.  The theorem `sweepList_rewriteList` below shows the sweep is the
identity on every already-rewritten fragment, so placing it inside the fold
does not alter the `</section>` accounting of the source. -/

/-- The page-break marker element inserted between sections. -/
def pageBreakDiv : String := "<div class=\x22page-break\x22></div>"

/-- The replacement spliced over the first `</style>`: the page-break utility
rule followed by the reinstated `</style>`. -/
def pageBreakStyleRepl : String :=
  "\n  .page-break \x7b\n    page-break-after: always;\n  \x7d\n</style>"

/-- The document shell up to (not including) the literal `</style>` of the
template: doctype, `<head>`, title, `<style>` with the font-path-processed
stylesheet. -/
def headA (title cssContent : String) : String :=
  "<!DOCTYPE html>\n<html>\n<head>\n  <meta charset=\x22UTF-8\x22>\n  <title>" ++ title ++
  "</title>\n  <style>\n    " ++ processFontPaths cssContent "assets/" ++ "\n  "

/-- The rest of the shell after `</style>`. -/
def headB : String := "\n</head>\n<body>"

/-- The full opening shell of the template literal (src/index.ts 383-392). -/
def htmlHead (title cssContent : String) : String := headA title cssContent ++ "</style>" ++ headB

/-- The string a spine item's content document contributes: per-document image
rewrite, final sweep, then `$('body').html()` serialization. -/
def processedBody (doc : NodeList) : String := renderList (sweepList (rewriteList doc))

/-- The loop body of src/index.ts 395-419 for one spine item, at the
no-read-failure projection of the filesystem boundary (see
`appendSpineItemFS` for the full boundary with a throwing `fs.readFile`, and
`createCombinedHtmlFS_ok_of_reads_ok` for the refinement connecting the two):
linear items whose content file exists contribute their processed body,
preceded by the page-break `div` exactly when the HTML accumulated so far
contains `</section>`; all other items leave the accumulator unchanged. -/
def appendSpineItem (contentStore : String → Option NodeList)
    (html : String) (spineItem : EpubSpineItem) : String :=
  if spineItem.linear then
    match contentStore spineItem.path with
    | some doc =>
        let bodyContent := processedBody doc
        (if hasSubStr html "</section>" then html ++ pageBreakDiv else html) ++ bodyContent
    | none => html
  else html

/-- Mirror of `createCombinedHtml`, restricted to the combined HTML string it writes
(asset copying is a filesystem side effect that contributes nothing to the
returned document text), on content stores where every existing file reads
successfully; `createCombinedHtmlFS` below keeps `fs.existsSync` and a
possibly-throwing `fs.readFile` separate. -/
def createCombinedHtml (title cssContent : String) (spine : List EpubSpineItem)
    (contentStore : String → Option NodeList) : String :=
  replaceFirstStr
    ((spine.foldl (appendSpineItem contentStore) (htmlHead title cssContent)) ++ "</body></html>")
    "</style>" pageBreakStyleRepl

/-- The content-file boundary of the assembly loop, kept as in the source:
`present` models `fs.existsSync` (line 396) and `read` models `fs.readFile`
followed by `cheerio.load` and body extraction (lines 397-398).  `read` may
fail — a rejected promise carrying the error message — and nothing in
`createCombinedHtml` catches such a failure: it aborts the conversion. -/
structure ContentFS where
  present : String → Bool
  read : String → Except String NodeList

/-- Monadic left fold: the awaited `for` loop of src/index.ts 395-419, where a
thrown read error aborts the loop (and with it the conversion). -/
def foldExcept (f : String → EpubSpineItem → Except String String) :
    String → List EpubSpineItem → Except String String
  | acc, [] => .ok acc
  | acc, spineItem :: rest =>
      match f acc spineItem with
      | .error e => .error e
      | .ok acc2 => foldExcept f acc2 rest

/-- The loop body of src/index.ts 395-419 at the faithful filesystem boundary:
an item is processed only when it is linear and `existsSync` holds; then
`fs.readFile` runs, and a read failure propagates out of the loop — it is not
caught, so the conversion fails rather than skipping the item. -/
def appendSpineItemFS (fsb : ContentFS) (html : String) (spineItem : EpubSpineItem) :
    Except String String :=
  if spineItem.linear && fsb.present spineItem.path then
    match fsb.read spineItem.path with
    | .error e => .error e
    | .ok doc =>
        let bodyContent := processedBody doc
        .ok ((if hasSubStr html "</section>" then html ++ pageBreakDiv else html) ++ bodyContent)
  else .ok html

/-- Variant of `createCombinedHtml` at the faithful filesystem boundary: the
combined document, or the first uncaught content-file read error. -/
def createCombinedHtmlFS (title cssContent : String) (spine : List EpubSpineItem)
    (fsb : ContentFS) : Except String String :=
  match foldExcept (appendSpineItemFS fsb) (htmlHead title cssContent) spine with
  | .error e => .error e
  | .ok html => .ok (replaceFirstStr (html ++ "</body></html>") "</style>" pageBreakStyleRepl)

/-- The content a spine item contributes to the body, `none` when it is
skipped (non-linear, or content file unreadable). -/
def segContent (contentStore : String → Option NodeList) (spineItem : EpubSpineItem) :
    Option String :=
  if spineItem.linear then (contentStore spineItem.path).map processedBody else none

/-- The body fragments of the assembled document, in spine order: one per
linear spine item whose content file exists. -/
def bodySegments (spine : List EpubSpineItem) (contentStore : String → Option NodeList) :
    List String :=
  spine.filterMap (segContent contentStore)

/-- The parsed body fragments that reach the document (linear, readable), in
spine order. -/
def segNodes (contentStore : String → Option NodeList) (spine : List EpubSpineItem) :
    List NodeList :=
  spine.filterMap (fun spineItem =>
    if spineItem.linear then contentStore spineItem.path else none)

/-- All `img` `src` attribute values of the final assembled document, in
document order (images occur only in the appended body fragments). -/
def docImgSrcs (spine : List EpubSpineItem) (contentStore : String → Option NodeList) :
    List String :=
  (segNodes contentStore spine).flatMap (fun doc => listImgSrcs (sweepList (rewriteList doc)))

/-- Interleaves separators and segments: `sep₁ ++ seg₁ ++ sep₂ ++ seg₂ ++ ...`
(used to state in what shape the body region decomposes). -/
def joinPairs : List String → List String → String
  | sep :: seps, seg :: segs => sep ++ seg ++ joinPairs seps segs
  | _, _ => ""

example :
    hasSubStr
      (createCombinedHtml "T" "x" [⟨"c1", true, "c1.xhtml", "d/c1.xhtml"⟩]
        (fun p => if p == "d/c1.xhtml"
          then some (.cons (.elem "p" [] (.cons (.text "a") .nil)) .nil) else none))
      "<body><p>a</p></body>" = true := by decide

/-! ## General lemmas about the string-operation models -/

theorem str_ext {a b : String} (h : a.data = b.data) : a = b := by
  cases a; cases b; exact congrArg String.mk h

theorem hasSubL_nil_pat (s : List Char) : hasSubL [] s = true := by
  cases s <;> simp [hasSubL, List.isPrefixOf]

theorem hasSubL_append_left {pat s : List Char} (t : List Char)
    (h : hasSubL pat s = true) : hasSubL pat (s ++ t) = true := by
  induction s with
  | nil =>
      have : pat = [] := by simpa [hasSubL, List.isEmpty_iff] using h
      subst this
      exact hasSubL_nil_pat t
  | cons c cs ih =>
      simp only [hasSubL, Bool.or_eq_true] at h
      rcases h with h | h
      · have h1 : pat <+: (c :: cs) := List.isPrefixOf_iff_prefix.mp h
        have h2 : pat <+: (c :: cs) ++ t := h1.trans (List.prefix_append _ t)
        simp only [List.cons_append, hasSubL, Bool.or_eq_true]
        exact Or.inl (List.isPrefixOf_iff_prefix.mpr (by simpa using h2))
      · simp only [List.cons_append, hasSubL, Bool.or_eq_true]
        exact Or.inr (ih h)

theorem hasSubL_length {pat s : List Char} (h : hasSubL pat s = true) :
    pat.length ≤ s.length := by
  induction s with
  | nil =>
      have : pat = [] := by simpa [hasSubL, List.isEmpty_iff] using h
      simp [this]
  | cons c cs ih =>
      simp only [hasSubL, Bool.or_eq_true] at h
      rcases h with h | h
      · exact (List.isPrefixOf_iff_prefix.mp h).length_le
      · exact (ih h).trans (by simp)

theorem hasSubL_sandwich (pat a b : List Char) : hasSubL pat (a ++ (pat ++ b)) = true := by
  induction a with
  | nil =>
      simp only [List.nil_append]
      cases hp : pat ++ b with
      | nil =>
          have : pat = [] := by
            cases pat with
            | nil => rfl
            | cons x xs => simp at hp
          subst this
          simp [hasSubL]
      | cons c cs =>
          rw [← hp]
          cases hq : pat ++ b with
          | nil => rw [hq] at hp; exact absurd hp (by simp)
          | cons d ds =>
              rw [← hq]
              have h1 : pat <+: pat ++ b := List.prefix_append _ _
              have h2 : pat.isPrefixOf (pat ++ b) = true := List.isPrefixOf_iff_prefix.mpr h1
              rw [hq] at h2 ⊢
              simp [hasSubL, h2]
  | cons c a' ih =>
      simp only [List.cons_append, hasSubL, Bool.or_eq_true]
      exact Or.inr ih

theorem prefix_of_prefix_append {p l t : List Char} (h : p <+: l ++ t)
    (hl : p.length ≤ l.length) : p <+: l := by
  have h1 : (l ++ t).take p.length = p := ((List.prefix_iff_eq_take.mp h).symm : _)
  rw [List.take_append_eq_append_take, Nat.sub_eq_zero_of_le hl] at h1
  simp only [List.take_zero, List.append_nil] at h1
  exact List.prefix_iff_eq_take.mpr h1.symm

theorem replaceFirstL_append {pat s : List Char} (repl t : List Char)
    (hpat : pat ≠ []) (h : hasSubL pat s = true) :
    replaceFirstL pat repl (s ++ t) = replaceFirstL pat repl s ++ t := by
  induction s with
  | nil =>
      exact absurd (by simpa [hasSubL, List.isEmpty_iff] using h) hpat
  | cons c cs ih =>
      simp only [hasSubL, Bool.or_eq_true] at h
      by_cases hpre : pat.isPrefixOf (c :: cs) = true
      · have h1 : pat <+: (c :: cs) := List.isPrefixOf_iff_prefix.mp hpre
        have h2 : pat.isPrefixOf ((c :: cs) ++ t) = true :=
          List.isPrefixOf_iff_prefix.mpr (h1.trans (List.prefix_append _ t))
        have hlen : pat.length ≤ (c :: cs).length := h1.length_le
        simp only [List.cons_append] at h2 ⊢
        rw [replaceFirstL, if_pos h2, replaceFirstL, if_pos hpre,
          ← List.cons_append, List.drop_append_of_le_length hlen]
        simp
      · have h2 : hasSubL pat cs = true := by
          rcases h with h | h
          · exact absurd h hpre
          · exact h
        have hlen : pat.length ≤ cs.length := hasSubL_length h2
        have hnp : ¬ pat.isPrefixOf (c :: (cs ++ t)) = true := by
          intro hc
          have h3 : pat <+: (c :: cs) ++ t := by
            simpa using List.isPrefixOf_iff_prefix.mp hc
          have h4 : pat <+: c :: cs :=
            prefix_of_prefix_append h3 (hlen.trans (by simp))
          exact hpre (List.isPrefixOf_iff_prefix.mpr h4)
        simp only [List.cons_append]
        rw [replaceFirstL, if_neg hnp, replaceFirstL, if_neg hpre, ih h2]
        simp

/-! ## Decomposition of the assembly fold -/

theorem appendSpineItem_none {store : String → Option NodeList} {it : EpubSpineItem}
    (acc : String) (h : segContent store it = none) :
    appendSpineItem store acc it = acc := by
  unfold appendSpineItem
  unfold segContent at h
  cases hl : it.linear with
  | false => simp [hl]
  | true =>
      rw [hl] at h
      simp only [if_true] at h
      cases hs : store it.path with
      | none => simp [hs]
      | some doc => rw [hs] at h; simp at h

theorem appendSpineItem_some {store : String → Option NodeList} {it : EpubSpineItem}
    {s : String} (acc : String) (h : segContent store it = some s) :
    appendSpineItem store acc it =
      acc ++ ((if hasSubStr acc "</section>" then pageBreakDiv else "") ++ s) := by
  unfold appendSpineItem
  unfold segContent at h
  cases hl : it.linear with
  | false => rw [hl] at h; simp at h
  | true =>
      rw [hl] at h
      simp only [if_true] at h
      cases hs : store it.path with
      | none => rw [hs] at h; simp at h
      | some doc =>
          rw [hs] at h
          have h2 : processedBody doc = s := by simpa using h
          subst h2
          simp only [hs]
          by_cases hc : hasSubStr acc "</section>" = true
          · rw [if_pos hc, if_pos hc, String.append_assoc]; simp
          · rw [if_neg hc, if_neg hc, String.empty_append]; simp

theorem foldl_append_decomp (store : String → Option NodeList)
    (spine : List EpubSpineItem) : ∀ acc : String,
    ∃ seps : List String,
      seps.length = (bodySegments spine store).length ∧
      (∀ x ∈ seps, x = pageBreakDiv ∨ x = "") ∧
      spine.foldl (appendSpineItem store) acc =
        acc ++ joinPairs seps (bodySegments spine store) := by
  induction spine with
  | nil =>
      intro acc
      exact ⟨[], by simp [bodySegments], by simp, by simp [bodySegments, joinPairs]⟩
  | cons it rest ih =>
      intro acc
      cases hseg : segContent store it with
      | none =>
          obtain ⟨seps, h1, h2, h3⟩ := ih acc
          have hb : bodySegments (it :: rest) store = bodySegments rest store := by
            simp [bodySegments, List.filterMap_cons, hseg]
          refine ⟨seps, by rw [hb]; exact h1, h2, ?_⟩
          rw [List.foldl_cons, appendSpineItem_none acc hseg, hb]
          exact h3
      | some s =>
          obtain ⟨seps, h1, h2, h3⟩ :=
            ih (acc ++ ((if hasSubStr acc "</section>" then pageBreakDiv else "") ++ s))
          have hb : bodySegments (it :: rest) store = s :: bodySegments rest store := by
            simp [bodySegments, List.filterMap_cons, hseg]
          refine ⟨(if hasSubStr acc "</section>" then pageBreakDiv else "") :: seps, ?_, ?_, ?_⟩
          · rw [hb]; simpa using h1
          · intro x hx
            rcases List.mem_cons.mp hx with hx | hx
            · subst hx
              by_cases hc : hasSubStr acc "</section>" = true
              · rw [if_pos hc]; exact Or.inl rfl
              · rw [if_neg hc]; exact Or.inr rfl
            · exact h2 x hx
          · rw [List.foldl_cons, appendSpineItem_some acc hseg, h3, hb, joinPairs,
              String.append_assoc]

theorem hasSub_style_htmlHead (title cssContent : String) :
    hasSubL "</style>".data (htmlHead title cssContent).data = true := by
  show hasSubL _ ((headA title cssContent ++ "</style>") ++ headB).data = true
  rw [String.data_append, String.data_append, List.append_assoc]
  exact hasSubL_sandwich _ _ _

/-- C1: for every package model, the assembled document decomposes as the
(page-break-css-patched) shell, followed by exactly the processed body content
of each linear spine item whose content file exists — once each, in spine
order, separated only by page-break markers or nothing — followed by the
closing tags.  Non-linear items and items with unreadable content contribute
no segment (`bodySegments` filters them out by definition), so their body
content never reaches the assembled document. -/
theorem assembledBody_linear_in_spine_order (title cssContent : String)
    (spine : List EpubSpineItem) (contentStore : String → Option NodeList) :
    ∃ seps : List String,
      seps.length = (bodySegments spine contentStore).length ∧
      (∀ x ∈ seps, x = pageBreakDiv ∨ x = "") ∧
      createCombinedHtml title cssContent spine contentStore =
        replaceFirstStr (htmlHead title cssContent) "</style>" pageBreakStyleRepl ++
          joinPairs seps (bodySegments spine contentStore) ++ "</body></html>" := by
  obtain ⟨seps, h1, h2, h3⟩ :=
    foldl_append_decomp contentStore spine (htmlHead title cssContent)
  refine ⟨seps, h1, h2, ?_⟩
  unfold createCombinedHtml
  rw [h3]
  apply str_ext
  have hpat : "</style>".data ≠ [] := by decide
  have e1 : ((htmlHead title cssContent ++
      joinPairs seps (bodySegments spine contentStore)) ++ "</body></html>").data =
      (htmlHead title cssContent).data ++
        ((joinPairs seps (bodySegments spine contentStore)).data ++ "</body></html>".data) := by
    rw [String.data_append, String.data_append, List.append_assoc]
  show replaceFirstL "</style>".data pageBreakStyleRepl.data _ = _
  rw [e1, replaceFirstL_append _ _ hpat (hasSub_style_htmlHead title cssContent),
    String.data_append, String.data_append, List.append_assoc]
  rfl

theorem foldExcept_append (f : String → EpubSpineItem → Except String String)
    (acc : String) (xs ys : List EpubSpineItem) :
    foldExcept f acc (xs ++ ys) =
      match foldExcept f acc xs with
      | .error e => .error e
      | .ok a => foldExcept f a ys := by
  induction xs generalizing acc with
  | nil => simp [foldExcept]
  | cons x xs ih =>
      simp only [List.cons_append, foldExcept]
      cases f acc x with
      | error e => rfl
      | ok acc2 => exact ih acc2

/-- C6 counterexample: a linear spine item whose content file exists
(`existsSync` true) but cannot be read (`fs.readFile` rejects, here with
EACCES) makes the whole conversion fail with the read error — the item is not
skipped, and the remaining readable chapter is never assembled.  This refutes
"whose content file cannot be read ... the conversion does not fail". -/
theorem unreadable_existing_file_fails :
    createCombinedHtmlFS "T" ""
      [⟨"c1", true, "c1.xhtml", "d/c1.xhtml"⟩, ⟨"c2", true, "c2.xhtml", "d/c2.xhtml"⟩]
      ⟨fun q => q == "d/c1.xhtml" || q == "d/c2.xhtml",
       fun q => if q == "d/c2.xhtml" then .ok (NodeList.cons (.text "B") .nil)
         else .error "EACCES: permission denied, open d/c1.xhtml"⟩ =
      .error "EACCES: permission denied, open d/c1.xhtml" := by rfl

/-- C6 amended: a spine item that is non-linear, or whose content file does
not exist (`fs.existsSync` false), is skipped silently and assembly continues:
deleting such an item from the spine leaves the result of the conversion
unchanged, the remaining linear readable items being assembled in the same
order as before.  A content file that exists but whose read fails is *not*
covered: there the uncaught `fs.readFile` error aborts the conversion (see the
counterexample). -/
theorem nonlinear_or_nonexistent_skipped (title cssContent : String)
    (s1 s2 : List EpubSpineItem) (it : EpubSpineItem) (fsb : ContentFS)
    (h : it.linear = false ∨ fsb.present it.path = false) :
    createCombinedHtmlFS title cssContent (s1 ++ it :: s2) fsb =
      createCombinedHtmlFS title cssContent (s1 ++ s2) fsb := by
  have hstep : ∀ acc, appendSpineItemFS fsb acc it = .ok acc := by
    intro acc
    unfold appendSpineItemFS
    rcases h with h | h
    · simp [h]
    · simp [h]
  unfold createCombinedHtmlFS
  rw [foldExcept_append, foldExcept_append]
  cases hfold : foldExcept (appendSpineItemFS fsb) (htmlHead title cssContent) s1 with
  | error e => rfl
  | ok a => simp [foldExcept, hstep a]

/-- Witness for the amended C6: in the ch1 / notes(non-linear) / ch2 scenario,
dropping the non-linear notes item leaves the conversion result unchanged. -/
theorem nonlinear_or_nonexistent_skipped_witness :
    ((⟨"notes", false, "notes.xhtml", "d/notes.xhtml"⟩ : EpubSpineItem).linear = false ∨
      (⟨fun q => q == "d/c1.xhtml" || q == "d/notes.xhtml" || q == "d/c2.xhtml",
        fun q => if q == "d/c1.xhtml" then .ok (NodeList.cons (.text "A") .nil)
          else if q == "d/notes.xhtml" then .ok (NodeList.cons (.text "N") .nil)
          else if q == "d/c2.xhtml" then .ok (NodeList.cons (.text "B") .nil)
          else .error "ENOENT"⟩ : ContentFS).present
        (⟨"notes", false, "notes.xhtml", "d/notes.xhtml"⟩ : EpubSpineItem).path = false) ∧
    createCombinedHtmlFS "T" "c"
      ([⟨"c1", true, "c1.xhtml", "d/c1.xhtml"⟩] ++
        (⟨"notes", false, "notes.xhtml", "d/notes.xhtml"⟩ : EpubSpineItem) ::
        [⟨"c2", true, "c2.xhtml", "d/c2.xhtml"⟩])
      ⟨fun q => q == "d/c1.xhtml" || q == "d/notes.xhtml" || q == "d/c2.xhtml",
       fun q => if q == "d/c1.xhtml" then .ok (NodeList.cons (.text "A") .nil)
         else if q == "d/notes.xhtml" then .ok (NodeList.cons (.text "N") .nil)
         else if q == "d/c2.xhtml" then .ok (NodeList.cons (.text "B") .nil)
         else .error "ENOENT"⟩ =
    createCombinedHtmlFS "T" "c"
      ([⟨"c1", true, "c1.xhtml", "d/c1.xhtml"⟩] ++ [⟨"c2", true, "c2.xhtml", "d/c2.xhtml"⟩])
      ⟨fun q => q == "d/c1.xhtml" || q == "d/notes.xhtml" || q == "d/c2.xhtml",
       fun q => if q == "d/c1.xhtml" then .ok (NodeList.cons (.text "A") .nil)
         else if q == "d/notes.xhtml" then .ok (NodeList.cons (.text "N") .nil)
         else if q == "d/c2.xhtml" then .ok (NodeList.cons (.text "B") .nil)
         else .error "ENOENT"⟩ :=
  ⟨Or.inl rfl,
    nonlinear_or_nonexistent_skipped "T" "c"
      [⟨"c1", true, "c1.xhtml", "d/c1.xhtml"⟩] [⟨"c2", true, "c2.xhtml", "d/c2.xhtml"⟩]
      ⟨"notes", false, "notes.xhtml", "d/notes.xhtml"⟩ _ (Or.inl rfl)⟩

/-- Refinement: on a package whose existing content files all read
successfully, the faithful-boundary assembly agrees with `createCombinedHtml`
over the collapsed content store (present-and-readable as one partial map) —
so every theorem stated over `createCombinedHtml` describes exactly the runs
in which `fs.readFile` never throws. -/
theorem createCombinedHtmlFS_ok_of_reads_ok (title cssContent : String)
    (spine : List EpubSpineItem) (fsb : ContentFS)
    (h : ∀ pth, fsb.present pth = true → ∃ doc, fsb.read pth = .ok doc) :
    createCombinedHtmlFS title cssContent spine fsb =
      .ok (createCombinedHtml title cssContent spine
        (fun pth => if fsb.present pth then (fsb.read pth).toOption else none)) := by
  have hfold : ∀ (sp : List EpubSpineItem) (acc : String),
      foldExcept (appendSpineItemFS fsb) acc sp =
        .ok (sp.foldl (appendSpineItem
          (fun pth => if fsb.present pth then (fsb.read pth).toOption else none)) acc) := by
    intro sp
    induction sp with
    | nil => intro acc; rfl
    | cons it rest ih =>
        intro acc
        rw [List.foldl_cons, foldExcept]
        have hone : appendSpineItemFS fsb acc it =
            .ok (appendSpineItem
              (fun pth => if fsb.present pth then (fsb.read pth).toOption else none) acc it) := by
          unfold appendSpineItemFS appendSpineItem
          cases hl : it.linear with
          | false => simp [hl]
          | true =>
              cases hp : fsb.present it.path with
              | false => simp [hl, hp]
              | true =>
                  obtain ⟨doc, hdoc⟩ := h it.path hp
                  simp [hl, hp, hdoc, Except.toOption]
        rw [hone]
        exact ih _
  unfold createCombinedHtmlFS createCombinedHtml
  rw [hfold]

/-- C8: document assembly is deterministic — it is a pure function of the
package model (title, aggregated stylesheet, spine, content files) and of
nothing else, so two runs on an unchanged model with identical configuration
produce byte-identical HTML strings.  (The temporary directory paths the
source allocates per run never appear in the document text: asset references
are emitted as the fixed relative prefix `assets/`.) -/
theorem createCombinedHtml_deterministic (t₁ t₂ c₁ c₂ : String)
    (sp₁ sp₂ : List EpubSpineItem) (st₁ st₂ : String → Option NodeList)
    (ht : t₁ = t₂) (hc : c₁ = c₂) (hsp : sp₁ = sp₂) (hst : st₁ = st₂) :
    createCombinedHtml t₁ c₁ sp₁ st₁ = createCombinedHtml t₂ c₂ sp₂ st₂ := by
  subst ht; subst hc; subst hsp; subst hst; rfl

/-- When some spine reference has no manifest match, `extractSpine` fails with
the `spineNotFoundMsg` of the first such reference. -/
theorem extractSpine_error_of_unmatched (itemrefs : List OpfItemref)
    (manifest : List EpubManifestItem)
    (h : ∃ r ∈ itemrefs, ∀ m ∈ manifest, m.id ≠ r.idref) :
    ∃ bad, (∃ r ∈ itemrefs, r.idref = bad ∧ ∀ m ∈ manifest, m.id ≠ bad) ∧
      extractSpine itemrefs manifest = .error (spineNotFoundMsg bad) := by
  induction itemrefs with
  | nil => obtain ⟨r, hr, _⟩ := h; simp at hr
  | cons r0 rest ih =>
      by_cases h0 : ∀ m ∈ manifest, m.id ≠ r0.idref
      · refine ⟨r0.idref, ⟨r0, by simp, rfl, h0⟩, ?_⟩
        have hfind : manifest.find? (fun item => item.id == r0.idref) = none := by
          rw [List.find?_eq_none]
          intro m hm
          simpa using h0 m hm
        unfold extractSpine
        simp [mapExcept, hfind]
      · push_neg at h0
        obtain ⟨m, hm, hid⟩ := h0
        have hfindSome : (manifest.find? (fun item => item.id == r0.idref)).isSome := by
          rw [List.find?_isSome]
          exact ⟨m, hm, by simpa using hid⟩
        obtain ⟨mi, hfind⟩ := Option.isSome_iff_exists.mp hfindSome
        have hrest : ∃ r ∈ rest, ∀ m ∈ manifest, m.id ≠ r.idref := by
          obtain ⟨r, hr, hall⟩ := h
          rcases List.mem_cons.mp hr with hr0 | hr'
          · subst hr0
            exact absurd hid (hall m hm)
          · exact ⟨r, hr', hall⟩
        obtain ⟨bad, ⟨r, hr, hrb, hnall⟩, herr⟩ := ih hrest
        refine ⟨bad, ⟨r, List.mem_cons_of_mem _ hr, hrb, hnall⟩, ?_⟩
        unfold extractSpine at herr ⊢
        simp [mapExcept, hfind, herr]

/-- C3: for every package whose spine contains a reference with no matching
manifest entry, building the package model fails with the
spine-reference-not-found error naming the (first) missing idref, and no
package model is produced (`buildPackageModel` returns only the error). -/
theorem buildPackageModel_spineReferenceNotFound (opf : OpfPackage) (opfDir : String)
    (cssStore : String → Option String) (opts : Options)
    (h : ∃ r ∈ opf.itemrefs, ∀ m ∈ extractManifest opf.items opfDir, m.id ≠ r.idref) :
    ∃ bad, (∃ r ∈ opf.itemrefs, r.idref = bad ∧
        ∀ m ∈ extractManifest opf.items opfDir, m.id ≠ bad) ∧
      buildPackageModel opf opfDir cssStore opts = .error (spineNotFoundMsg bad) := by
  obtain ⟨bad, hbad, herr⟩ := extractSpine_error_of_unmatched _ _ h
  refine ⟨bad, hbad, ?_⟩
  simp [buildPackageModel, herr]

/-- Witness for C3: a spine referencing `missing` against a one-item manifest
fails with the message naming `missing`. -/
theorem buildPackageModel_spineReferenceNotFound_witness :
    (∃ r ∈ ([⟨"missing", none⟩] : List OpfItemref),
      ∀ m ∈ extractManifest [⟨"a", "a.xhtml", "application/xhtml+xml", none⟩] "OEBPS",
        m.id ≠ r.idref) ∧
    ∃ bad, (∃ r ∈ ([⟨"missing", none⟩] : List OpfItemref), r.idref = bad ∧
        ∀ m ∈ extractManifest [⟨"a", "a.xhtml", "application/xhtml+xml", none⟩] "OEBPS",
          m.id ≠ bad) ∧
      buildPackageModel
        ⟨none, none, none, [⟨"a", "a.xhtml", "application/xhtml+xml", none⟩],
          [⟨"missing", none⟩]⟩ "OEBPS" (fun _ => none) ⟨"0.5", true, "", true⟩ =
        .error (spineNotFoundMsg bad) :=
  ⟨by decide,
    buildPackageModel_spineReferenceNotFound
      ⟨none, none, none, [⟨"a", "a.xhtml", "application/xhtml+xml", none⟩],
        [⟨"missing", none⟩]⟩ "OEBPS" (fun _ => none) ⟨"0.5", true, "", true⟩ (by decide)⟩

/-- Returns `true` iff an `Except` computation succeeded. -/
def exceptOk : Except ε α → Bool
  | .ok _ => true
  | .error _ => false

/-- C2 counterexample: a package whose manifest has two entries sharing the id
`f1` does not make the build fail — `buildPackageModel` succeeds, because no
duplicate-id check exists anywhere in the pipeline (`extractManifest` is a
plain map over the manifest entries). -/
theorem duplicateManifestId_not_rejected :
    exceptOk (buildPackageModel
      ⟨none, none, none,
        [⟨"f1", "a.xhtml", "application/xhtml+xml", none⟩,
         ⟨"f1", "b.xhtml", "application/xhtml+xml", none⟩],
        [⟨"f1", none⟩]⟩ "OEBPS" (fun _ => none) ⟨"0.5", true, "", true⟩) = true := by
  decide

/-- The mirror of `extractSpine` succeeds whenever every reference has a manifest match. -/
theorem extractSpine_ok_of_resolvable (itemrefs : List OpfItemref)
    (manifest : List EpubManifestItem)
    (h : ∀ r ∈ itemrefs, ∃ m ∈ manifest, m.id = r.idref) :
    ∃ l, extractSpine itemrefs manifest = .ok l := by
  induction itemrefs with
  | nil => exact ⟨[], rfl⟩
  | cons r0 rest ih =>
      have h0 := h r0 (by simp)
      have hfindSome : (manifest.find? (fun item => item.id == r0.idref)).isSome := by
        rw [List.find?_isSome]
        obtain ⟨m, hm, hid⟩ := h0
        exact ⟨m, hm, by simpa using hid⟩
      obtain ⟨mi, hfind⟩ := Option.isSome_iff_exists.mp hfindSome
      obtain ⟨l, hl⟩ := ih (fun r hr => h r (List.mem_cons_of_mem _ hr))
      unfold extractSpine at hl ⊢
      refine ⟨⟨r0.idref, !(r0.linear == some "no"), mi.href, mi.path⟩ :: l, ?_⟩
      simp [mapExcept, hfind, hl]

/-- C2 amended: the model builder performs no duplicate-id check; building
succeeds for every package whose spine references all resolve — duplicate
manifest ids included — each spine reference resolving to the first manifest
entry carrying the id. -/
theorem buildPackageModel_ok_of_resolvable_spine (opf : OpfPackage) (opfDir : String)
    (cssStore : String → Option String) (opts : Options)
    (h : ∀ r ∈ opf.itemrefs, ∃ m ∈ extractManifest opf.items opfDir, m.id = r.idref) :
    exceptOk (buildPackageModel opf opfDir cssStore opts) = true := by
  obtain ⟨l, hl⟩ := extractSpine_ok_of_resolvable _ _ h
  simp [buildPackageModel, hl, exceptOk]

/-- Witness for the amended C2: the duplicate-id package (ids `f1`, `f1`)
builds successfully. -/
theorem buildPackageModel_ok_of_resolvable_spine_witness :
    (∀ r ∈ ([⟨"f1", none⟩] : List OpfItemref),
      ∃ m ∈ extractManifest
        [⟨"f1", "a.xhtml", "application/xhtml+xml", none⟩,
         ⟨"f1", "b.xhtml", "application/xhtml+xml", none⟩] "OEBPS", m.id = r.idref) ∧
    exceptOk (buildPackageModel
      ⟨none, none, none,
        [⟨"f1", "a.xhtml", "application/xhtml+xml", none⟩,
         ⟨"f1", "b.xhtml", "application/xhtml+xml", none⟩],
        [⟨"f1", none⟩]⟩ "OEBPS" (fun _ => none) ⟨"0.5", true, "", true⟩) = true :=
  ⟨by decide,
    buildPackageModel_ok_of_resolvable_spine
      ⟨none, none, none,
        [⟨"f1", "a.xhtml", "application/xhtml+xml", none⟩,
         ⟨"f1", "b.xhtml", "application/xhtml+xml", none⟩],
        [⟨"f1", none⟩]⟩ "OEBPS" (fun _ => none) ⟨"0.5", true, "", true⟩ (by decide)⟩

/-- The engine-generated page-margin rule, as emitted inside `pdfCss`. -/
def pageMarginRule (margin : String) : String :=
  "@page \x7b\n        margin: " ++ margin ++ "in;\n      \x7d"

/-- The engine-generated body reset rule, as emitted inside `pdfCss`. -/
def bodyResetRule : String :=
  "body \x7b\n        margin: 0;\n        padding: 0;\n      \x7d"

/-- The page-break utility rule, as spliced into the style element by
`createCombinedHtml`. -/
def pageBreakRule : String :=
  ".page-break \x7b\n    page-break-after: always;\n  \x7d"

/-- C4 counterexample: in the claimed scenario — spine
`[ch1(linear), notes(linear="no"), ch2(linear)]` — with chapter bodies
`<p>a</p>` / `<p>n</p>` / `<p>b</p>`, the assembled document contains the two
chapter bodies *adjacent*, with no page-break marker element anywhere (and no
notes content): the source only inserts the marker when the accumulated HTML
already contains the substring `</section>`, which plain paragraph content
never produces.  This refutes "exactly one page-break marker between each pair
of consecutively appended documents". -/
theorem pageBreak_missing_without_section :
    hasSubStr
      (createCombinedHtml "T" ""
        [⟨"ch1", true, "ch1.xhtml", "d/ch1.xhtml"⟩,
         ⟨"notes", false, "notes.xhtml", "d/notes.xhtml"⟩,
         ⟨"ch2", true, "ch2.xhtml", "d/ch2.xhtml"⟩]
        (fun q => if q == "d/ch1.xhtml"
          then some (NodeList.cons (.elem "p" [] (.cons (.text "a") .nil)) .nil)
          else if q == "d/notes.xhtml"
          then some (NodeList.cons (.elem "p" [] (.cons (.text "n") .nil)) .nil)
          else if q == "d/ch2.xhtml"
          then some (NodeList.cons (.elem "p" [] (.cons (.text "b") .nil)) .nil)
          else none))
      "<p>a</p><p>b</p>" = true ∧
    hasSubStr
      (createCombinedHtml "T" ""
        [⟨"ch1", true, "ch1.xhtml", "d/ch1.xhtml"⟩,
         ⟨"notes", false, "notes.xhtml", "d/notes.xhtml"⟩,
         ⟨"ch2", true, "ch2.xhtml", "d/ch2.xhtml"⟩]
        (fun q => if q == "d/ch1.xhtml"
          then some (NodeList.cons (.elem "p" [] (.cons (.text "a") .nil)) .nil)
          else if q == "d/notes.xhtml"
          then some (NodeList.cons (.elem "p" [] (.cons (.text "n") .nil)) .nil)
          else if q == "d/ch2.xhtml"
          then some (NodeList.cons (.elem "p" [] (.cons (.text "b") .nil)) .nil)
          else none))
      pageBreakDiv = false ∧
    hasSubStr
      (createCombinedHtml "T" ""
        [⟨"ch1", true, "ch1.xhtml", "d/ch1.xhtml"⟩,
         ⟨"notes", false, "notes.xhtml", "d/notes.xhtml"⟩,
         ⟨"ch2", true, "ch2.xhtml", "d/ch2.xhtml"⟩]
        (fun q => if q == "d/ch1.xhtml"
          then some (NodeList.cons (.elem "p" [] (.cons (.text "a") .nil)) .nil)
          else if q == "d/notes.xhtml"
          then some (NodeList.cons (.elem "p" [] (.cons (.text "n") .nil)) .nil)
          else if q == "d/ch2.xhtml"
          then some (NodeList.cons (.elem "p" [] (.cons (.text "b") .nil)) .nil)
          else none))
      "<p>n</p>" = false := by decide

/-- C4 amended: the page-break marker is inserted before an appended document
exactly when the accumulated HTML already contains `</section>`; so for
section-wrapped chapter content the claimed scenario does hold — the body is
ch1 content, exactly one page-break marker, ch2 content, with no marker before
ch1 and no notes content — while section-less content gets no marker. -/
theorem pageBreak_sectioned_scenario :
    hasSubStr
      (createCombinedHtml "T" ""
        [⟨"ch1", true, "ch1.xhtml", "d/ch1.xhtml"⟩,
         ⟨"notes", false, "notes.xhtml", "d/notes.xhtml"⟩,
         ⟨"ch2", true, "ch2.xhtml", "d/ch2.xhtml"⟩]
        (fun q => if q == "d/ch1.xhtml"
          then some (NodeList.cons (.elem "section" [] (.cons (.text "a") .nil)) .nil)
          else if q == "d/notes.xhtml"
          then some (NodeList.cons (.elem "section" [] (.cons (.text "n") .nil)) .nil)
          else if q == "d/ch2.xhtml"
          then some (NodeList.cons (.elem "section" [] (.cons (.text "b") .nil)) .nil)
          else none))
      ("<body><section>a</section>" ++ pageBreakDiv ++ "<section>b</section></body>") = true ∧
    countSubStr
      (createCombinedHtml "T" ""
        [⟨"ch1", true, "ch1.xhtml", "d/ch1.xhtml"⟩,
         ⟨"notes", false, "notes.xhtml", "d/notes.xhtml"⟩,
         ⟨"ch2", true, "ch2.xhtml", "d/ch2.xhtml"⟩]
        (fun q => if q == "d/ch1.xhtml"
          then some (NodeList.cons (.elem "section" [] (.cons (.text "a") .nil)) .nil)
          else if q == "d/notes.xhtml"
          then some (NodeList.cons (.elem "section" [] (.cons (.text "n") .nil)) .nil)
          else if q == "d/ch2.xhtml"
          then some (NodeList.cons (.elem "section" [] (.cons (.text "b") .nil)) .nil)
          else none))
      pageBreakDiv = 1 ∧
    hasSubStr
      (createCombinedHtml "T" ""
        [⟨"ch1", true, "ch1.xhtml", "d/ch1.xhtml"⟩,
         ⟨"notes", false, "notes.xhtml", "d/notes.xhtml"⟩,
         ⟨"ch2", true, "ch2.xhtml", "d/ch2.xhtml"⟩]
        (fun q => if q == "d/ch1.xhtml"
          then some (NodeList.cons (.elem "section" [] (.cons (.text "a") .nil)) .nil)
          else if q == "d/notes.xhtml"
          then some (NodeList.cons (.elem "section" [] (.cons (.text "n") .nil)) .nil)
          else if q == "d/ch2.xhtml"
          then some (NodeList.cons (.elem "section" [] (.cons (.text "b") .nil)) .nil)
          else none))
      "<section>n</section>" = false := by decide

/-- C7 counterexample: with zero stylesheet entries, `preserveOriginalCss =
true` and margin `1`, the aggregated stylesheet contains `padding: 0;` — text
that occurs in neither the engine-generated page-margin rule nor the
page-break rule (it belongs to the body reset rule the engine also emits), so
the stylesheet does not consist of the two claimed rules "and nothing
else". -/
theorem stylesheet_contains_body_reset :
    hasSubStr (processCssFiles ⟨"1", true, "", true⟩ [] (fun _ => none)) "padding: 0;" = true ∧
    hasSubStr (pageMarginRule "1") "padding" = false ∧
    hasSubStr pageBreakRule "padding" = false := by decide

/-- C7 amended: in the scenario (zero stylesheet entries,
`preserveOriginalStyles = true`, margin `1`, no custom CSS) the assembled
document's stylesheet consists, up to whitespace, of exactly the
engine-generated rules: the `@page` margin rule with margin `1in`, the body
reset rule, and the page-break utility rule — and nothing else. -/
theorem stylesheet_scenario_exact :
    createCombinedHtml "T" (processCssFiles ⟨"1", true, "", true⟩ [] (fun _ => none)) []
      (fun _ => none) =
    "<!DOCTYPE html>\n<html>\n<head>\n  <meta charset=\x22UTF-8\x22>\n  <title>T</title>\n  <style>\n    " ++
      ("\n      " ++ pageMarginRule "1" ++ "\n      " ++ bodyResetRule ++ "\n    ") ++
      "\n  " ++ ("\n  " ++ pageBreakRule ++ "\n") ++
      "</style>" ++ "\n</head>\n<body>" ++ "</body></html>" := by decide

/-- C10: for every configuration and every list of source stylesheets, the
aggregated stylesheet ends with the engine-generated suffix `pdfCss`, which
consists of the `@page` rule carrying the configured margin together with the
body reset rule. -/
theorem processCssFiles_ends_with_pdfCss (opts : Options)
    (cssFiles : List EpubManifestItem) (cssStore : String → Option String) :
    ∃ q, processCssFiles opts cssFiles cssStore = q ++ pdfCss opts.margin ∧
      pdfCss opts.margin =
        "\n      " ++ pageMarginRule opts.margin ++ "\n      " ++ bodyResetRule ++ "\n    " := by
  refine ⟨_, rfl, ?_⟩
  apply str_ext
  simp only [pdfCss, pageMarginRule, bodyResetRule, String.data_append, List.append_assoc]
  rfl

/-! ## Image-source rewriting facts (C5) -/

theorem getAttr_setAttr (attrs : List (String × String)) (k v : String) :
    getAttr (setAttr attrs k v) k = some v := by
  induction attrs with
  | nil => simp [setAttr, getAttr]
  | cons p rest ih =>
      obtain ⟨k', w⟩ := p
      by_cases hk : (k' == k) = true
      · simp [setAttr, hk, getAttr]
      · simp only [setAttr, hk, Bool.false_eq_true, if_false]
        simpa [getAttr, hk] using ih

theorem strStartsWith_append (pre x : String) : strStartsWith (pre ++ x) pre = true := by
  unfold strStartsWith
  rw [String.data_append]
  exact List.isPrefixOf_iff_prefix.mpr (List.prefix_append _ _)

theorem assets_append_ne_empty (b : String) : ¬("assets/" ++ b = "") := by
  intro h
  have h1 := congrArg String.length h
  rw [String.length_append] at h1
  have h7 : "assets/".length = 7 := rfl
  have h0 : "".length = 0 := rfl
  rw [h7, h0] at h1
  omega

/-- The transformation the per-document rewrite applies to one `src` value:
empty (falsy) values are skipped, anything else becomes
`assets/<basename>`. -/
def rewriteSrcStep (s : String) : String :=
  if s == "" then s else "assets/" ++ basename s

mutual
/-- The final sweep finds nothing to fix in a node already processed by the
per-document rewrite: every rewritten `src` starts with `assets/` (or is empty
and skipped by both passes). -/
theorem sweepNode_rewriteNode (n : Node) : sweepNode (rewriteNode n) = rewriteNode n := by
  cases n with
  | text s => rfl
  | elem tag attrs children =>
      by_cases htag : (tag == "img") = true
      · cases hsrc : getAttr attrs "src" with
        | none => simp [rewriteNode, sweepNode, htag, hsrc, sweepList_rewriteList children]
        | some src =>
            by_cases hemp : (src == "") = true
            · simp [rewriteNode, sweepNode, htag, hsrc, hemp, sweepList_rewriteList children]
            · have hget : getAttr (setAttr attrs "src" ("assets/" ++ basename src)) "src" =
                  some ("assets/" ++ basename src) := getAttr_setAttr _ _ _
              have hne : (("assets/" ++ basename src) == "") = false :=
                beq_eq_false_iff_ne.mpr (assets_append_ne_empty _)
              have hsw : strStartsWith ("assets/" ++ basename src) "assets/" = true :=
                strStartsWith_append _ _
              simp [rewriteNode, sweepNode, htag, hsrc, hemp, hget, hne, hsw,
                sweepList_rewriteList children]
      · simp [rewriteNode, sweepNode, htag, sweepList_rewriteList children]
/-- List version of `sweepNode_rewriteNode`. -/
theorem sweepList_rewriteList (ns : NodeList) : sweepList (rewriteList ns) = rewriteList ns := by
  cases ns with
  | nil => rfl
  | cons n ns' =>
      simp [rewriteList, sweepList, sweepNode_rewriteNode n, sweepList_rewriteList ns']
end

mutual
/-- The per-document rewrite maps each `img` `src` through `rewriteSrcStep`,
preserving number and order of image references. -/
theorem nodeImgSrcs_rewriteNode (n : Node) :
    nodeImgSrcs (rewriteNode n) = (nodeImgSrcs n).map rewriteSrcStep := by
  cases n with
  | text s => rfl
  | elem tag attrs children =>
      by_cases htag : (tag == "img") = true
      · cases hsrc : getAttr attrs "src" with
        | none =>
            simp [rewriteNode, nodeImgSrcs, htag, hsrc, listImgSrcs_rewriteList children]
        | some src =>
            by_cases hemp : (src == "") = true
            · have hs : src = "" := by simpa using hemp
              simp [rewriteNode, nodeImgSrcs, htag, hsrc, hemp, rewriteSrcStep, hs,
                listImgSrcs_rewriteList children]
            · have hget : getAttr (setAttr attrs "src" ("assets/" ++ basename src)) "src" =
                  some ("assets/" ++ basename src) := getAttr_setAttr _ _ _
              simp [rewriteNode, nodeImgSrcs, htag, hsrc, hemp, hget, rewriteSrcStep,
                listImgSrcs_rewriteList children]
      · simp [rewriteNode, nodeImgSrcs, htag, listImgSrcs_rewriteList children]
/-- List version of `nodeImgSrcs_rewriteNode`. -/
theorem listImgSrcs_rewriteList (ns : NodeList) :
    listImgSrcs (rewriteList ns) = (listImgSrcs ns).map rewriteSrcStep := by
  cases ns with
  | nil => rfl
  | cons n ns' =>
      simp [rewriteList, listImgSrcs, nodeImgSrcs_rewriteNode n, listImgSrcs_rewriteList ns']
end

/-- C5 amended: the image `src` attributes of the final assembled document are
exactly the original document-order `src` values mapped through
`rewriteSrcStep`: every *non-empty* original `src` becomes
`assets/<basename(src)>`, while an empty `src` attribute (falsy in JS) is
skipped by both rewrite passes and survives verbatim. -/
theorem imgSrcs_rewritten_to_assets (spine : List EpubSpineItem)
    (contentStore : String → Option NodeList) :
    docImgSrcs spine contentStore =
      ((segNodes contentStore spine).flatMap listImgSrcs).map rewriteSrcStep := by
  unfold docImgSrcs
  generalize segNodes contentStore spine = segs
  induction segs with
  | nil => rfl
  | cons doc rest ih =>
      simp only [List.flatMap_cons, List.map_append]
      rw [sweepList_rewriteList, listImgSrcs_rewriteList, ih]

/-- C5 counterexample: a content document containing `<img src="">` defeats
the claim — the empty `src` attribute is present in the final assembled
document unchanged (it does not match `assets/<basename>`, which always
starts with `assets/`). -/
theorem imgSrc_empty_not_rewritten :
    docImgSrcs [⟨"c1", true, "c1.xhtml", "d/c1.xhtml"⟩]
      (fun q => if q == "d/c1.xhtml"
        then some (NodeList.cons (.elem "img" [("src", "")] .nil) .nil) else none) = [""] ∧
    strStartsWith "" "assets/" = false ∧
    hasSubStr
      (createCombinedHtml "T" "" [⟨"c1", true, "c1.xhtml", "d/c1.xhtml"⟩]
        (fun q => if q == "d/c1.xhtml"
          then some (NodeList.cons (.elem "img" [("src", "")] .nil) .nil) else none))
      "<img src=\x22\x22>" = true := by decide

/-! ## Facts about the `processFontPaths` scanner (C9) -/

/-- The left parenthesis (codepoint 40). -/
def lparen : Char := Char.ofNat 40

theorem pfp_skip (fd : String) : ∀ (cs : List Char) (k : Nat),
    processFontPathsL fd k cs = processFontPathsL fd 0 (cs.drop k)
  | _, 0 => by rw [List.drop_zero]
  | [], _ + 1 => rfl
  | c :: cs, k + 1 => by
      rw [List.drop_succ_cons]
      exact pfp_skip fd cs k

theorem prefix_append_take_sub {p x y : List Char} (h : p <+: x ++ y) (hx : 1 ≤ x.length) :
    p <+: x ++ y.take (p.length - 1) := by
  have h1 : (x ++ y).take p.length = p := (List.prefix_iff_eq_take.mp h).symm
  have h2 : (x ++ y.take (p.length - 1)).take p.length = (x ++ y).take p.length := by
    simp only [List.take_append_eq_append_take, List.take_take]
    have hm : min (p.length - x.length) (p.length - 1) = p.length - x.length := by omega
    rw [hm]
  exact List.prefix_iff_eq_take.mpr (by rw [h2, h1])

/-- Scanning a region that holds no beginning of a `url(` match emits it
verbatim (the `take 3` accounts for matches straddling the region's end). -/
theorem pfp_append_of_no_match (fd : String) (pre rest : List Char)
    (h : hasSubL urlPat (pre ++ rest.take 3) = false) :
    processFontPathsL fd 0 (pre ++ rest) = pre ++ processFontPathsL fd 0 rest := by
  induction pre with
  | nil => simp
  | cons c pre' ih =>
      rw [List.cons_append] at h
      have hsplit : urlPat.isPrefixOf (c :: (pre' ++ rest.take 3)) = false ∧
          hasSubL urlPat (pre' ++ rest.take 3) = false := by
        have h' : (urlPat.isPrefixOf (c :: (pre' ++ rest.take 3)) ||
            hasSubL urlPat (pre' ++ rest.take 3)) = false := h
        exact Bool.or_eq_false_iff.mp h'
      have hnp : urlPat.isPrefixOf (c :: (pre' ++ rest)) = false := by
        cases hb : urlPat.isPrefixOf (c :: (pre' ++ rest)) with
        | false => rfl
        | true =>
            have hpre : urlPat <+: (c :: pre') ++ rest := by
              simpa using List.isPrefixOf_iff_prefix.mp hb
            have h3 := prefix_append_take_sub hpre (by simp)
            have h4 : urlPat.isPrefixOf (c :: (pre' ++ rest.take 3)) = true := by
              apply List.isPrefixOf_iff_prefix.mpr
              have hlen : urlPat.length - 1 = 3 := rfl
              rw [hlen] at h3
              simpa using h3
            rw [hsplit.1] at h4
            exact absurd h4 (by simp)
      have hstep : processFontPathsL fd 0 (c :: (pre' ++ rest)) =
          c :: processFontPathsL fd 0 (pre' ++ rest) := by
        simp [processFontPathsL, hnp]
      rw [List.cons_append, hstep, ih hsplit.2, List.cons_append]

theorem takeWhile_append_stop {pred : Char → Bool} {p : List Char} {d : Char} (t : List Char)
    (hall : ∀ c ∈ p, pred c = true) (hd : pred d = false) :
    (p ++ d :: t).takeWhile pred = p := by
  induction p with
  | nil => simp [List.takeWhile_cons, hd]
  | cons a p' ih =>
      have ha := hall a (by simp)
      simp only [List.cons_append, List.takeWhile_cons, ha, if_true]
      rw [ih (fun c hc => hall c (List.mem_cons_of_mem _ hc))]

theorem urlMatchTail_exact (p post : List Char) (hne : p ≠ [])
    (hchars : ∀ c ∈ p, urlPathChar c = true) :
    urlMatchTail (p ++ rparen :: post) = some (⟨p⟩, p.length + 1) := by
  cases p with
  | nil => exact absurd rfl hne
  | cons a p' =>
      have ha := hchars a (by simp)
      have ha3 : (a == squote) = false ∧ (a == dquote) = false ∧ (a == rparen) = false := by
        have h0 : (a == squote || a == dquote || a == rparen) = false := by
          simpa [urlPathChar] using ha
        have h1 := Bool.or_eq_false_iff.mp h0
        have h2 := Bool.or_eq_false_iff.mp h1.1
        exact ⟨h2.1, h2.2, h1.2⟩
      have hq1 : isQuoteHead ((a :: p') ++ rparen :: post) = false := by
        simp [isQuoteHead, ha3.1, ha3.2.1]
      have hrp : urlPathChar rparen = false := by decide
      have hrun : ((a :: p') ++ rparen :: post).takeWhile urlPathChar = a :: p' :=
        takeWhile_append_stop post hchars hrp
      have hdrop : ((a :: p') ++ rparen :: post).drop (a :: p').length = rparen :: post :=
        List.drop_left _ _
      have hq2 : isQuoteHead (rparen :: post) = false := by
        simp only [isQuoteHead]
        decide
      unfold urlMatchTail
      simp only [hq1, if_false, Bool.false_eq_true, List.drop_zero, hrun, hdrop, hq2,
        List.isEmpty_cons]
      simp [beq_self_eq_true]

theorem pfp_step_match (fd : String) (c : Char) (cs : List Char) (q : String) (n : Nat)
    (hpre : urlPat.isPrefixOf (c :: cs) = true)
    (hmt : urlMatchTail (cs.drop 3) = some (q, n)) :
    processFontPathsL fd 0 (c :: cs) =
      (urlRepl fd q).data ++ processFontPathsL fd (3 + n) cs := by
  simp [processFontPathsL, hpre, hmt]

/-- One full match step of the scanner: a `url(<path>)` occurrence at the head
is replaced and scanning resumes right after the closing parenthesis. -/
theorem pfp_match_full (fd : String) (p post : List Char) (hne : p ≠ [])
    (hchars : ∀ c ∈ p, urlPathChar c = true) :
    processFontPathsL fd 0 (urlPat ++ (p ++ rparen :: post)) =
      (urlRepl fd ⟨p⟩).data ++ processFontPathsL fd 0 post := by
  have hpre : urlPat.isPrefixOf (urlPat ++ (p ++ rparen :: post)) = true :=
    List.isPrefixOf_iff_prefix.mpr (List.prefix_append _ _)
  have hmt : urlMatchTail (('r' :: 'l' :: lparen :: (p ++ rparen :: post)).drop 3) =
      some (⟨p⟩, p.length + 1) := by
    have hd : ('r' :: 'l' :: lparen :: (p ++ rparen :: post)).drop 3 =
        p ++ rparen :: post := rfl
    rw [hd]
    exact urlMatchTail_exact p post hne hchars
  have hshape : urlPat ++ (p ++ rparen :: post) =
      'u' :: ('r' :: 'l' :: lparen :: (p ++ rparen :: post)) := rfl
  rw [hshape] at hpre ⊢
  rw [pfp_step_match fd _ _ _ _ hpre hmt]
  congr 1
  rw [pfp_skip]
  congr 1
  have e4 : 3 + (p.length + 1) = (['r', 'l', lparen] : List Char).length + (p.length + 1) := by
    simp
  rw [e4,
    show ('r' :: 'l' :: lparen :: (p ++ rparen :: post)) =
      ['r', 'l', lparen] ++ (p ++ rparen :: post) from rfl,
    List.drop_append, List.append_cons,
    show p.length + 1 = (p ++ [rparen]).length from by simp]
  exact List.drop_left _ _

theorem urlMatchTail_exact_q (q : Char) (hqh : (q == squote || q == dquote) = true)
    (p post : List Char) (hne : p ≠ [])
    (hchars : ∀ c ∈ p, urlPathChar c = true) :
    urlMatchTail ((q :: (p ++ [q])) ++ rparen :: post) = some (⟨p⟩, p.length + 3) := by
  have hqp : urlPathChar q = false := by
    cases hsq : (q == squote) with
    | true => simp [urlPathChar, hsq]
    | false =>
        have hdq : (q == dquote) = true := by
          cases hdq2 : (q == dquote) with
          | true => rfl
          | false => rw [hsq, hdq2] at hqh; exact absurd hqh (by simp)
        simp [urlPathChar, hdq]
  have hshape : (q :: (p ++ [q])) ++ rparen :: post = q :: (p ++ q :: rparen :: post) := by
    simp
  rw [hshape]
  have hq1 : isQuoteHead (q :: (p ++ q :: rparen :: post)) = true := by
    simp [isQuoteHead, hqh]
  have hcs1 : (q :: (p ++ q :: rparen :: post)).drop 1 = p ++ q :: rparen :: post := rfl
  have hrun : (p ++ q :: rparen :: post).takeWhile urlPathChar = p :=
    takeWhile_append_stop _ hchars hqp
  have hdrop : (p ++ q :: rparen :: post).drop p.length = q :: rparen :: post :=
    List.drop_left _ _
  have hq2 : isQuoteHead (q :: rparen :: post) = true := by simp [isQuoteHead, hqh]
  have hpemp : p.isEmpty = false := by
    cases p with
    | nil => exact absurd rfl hne
    | cons a p' => rfl
  unfold urlMatchTail
  simp only [hq1, if_true, hcs1, hrun, hdrop, hq2, hpemp, Bool.false_eq_true, if_false,
    List.drop_succ_cons, List.drop_zero]
  simp [beq_self_eq_true]
  omega

/-- Quoted variant of `pfp_match_full`: a `url('<path>')` (or double-quoted)
occurrence at the head is replaced — the quotes are consumed by the match and
the canonical single-quoted replacement is emitted. -/
theorem pfp_match_full_quoted (fd : String) (q : Char)
    (hqh : (q == squote || q == dquote) = true) (p post : List Char) (hne : p ≠ [])
    (hchars : ∀ c ∈ p, urlPathChar c = true) :
    processFontPathsL fd 0 (urlPat ++ ((q :: (p ++ [q])) ++ rparen :: post)) =
      (urlRepl fd ⟨p⟩).data ++ processFontPathsL fd 0 post := by
  have hpre : urlPat.isPrefixOf (urlPat ++ ((q :: (p ++ [q])) ++ rparen :: post)) = true :=
    List.isPrefixOf_iff_prefix.mpr (List.prefix_append _ _)
  have hmt : urlMatchTail
      (('r' :: 'l' :: lparen :: ((q :: (p ++ [q])) ++ rparen :: post)).drop 3) =
      some (⟨p⟩, p.length + 3) := by
    have hd : ('r' :: 'l' :: lparen :: ((q :: (p ++ [q])) ++ rparen :: post)).drop 3 =
        (q :: (p ++ [q])) ++ rparen :: post := rfl
    rw [hd]
    exact urlMatchTail_exact_q q hqh p post hne hchars
  have hshape : urlPat ++ ((q :: (p ++ [q])) ++ rparen :: post) =
      'u' :: ('r' :: 'l' :: lparen :: ((q :: (p ++ [q])) ++ rparen :: post)) := rfl
  rw [hshape] at hpre ⊢
  rw [pfp_step_match fd _ _ _ _ hpre hmt]
  congr 1
  rw [pfp_skip]
  congr 1
  have e4 : 3 + (p.length + 3) =
      (['r', 'l', lparen] : List Char).length + (p.length + 3) := by simp
  have e5 : p.length + 3 = ((q :: (p ++ [q])) ++ [rparen]).length := by
    simp
  rw [e4,
    show ('r' :: 'l' :: lparen :: ((q :: (p ++ [q])) ++ rparen :: post)) =
      ['r', 'l', lparen] ++ ((q :: (p ++ [q])) ++ rparen :: post) from rfl,
    List.drop_append, List.append_cons, e5]
  exact List.drop_left _ _

/-- Rendering of an optional quote character (the `['"]?` part of a
reference). -/
def quoteStr : Option Char → String
  | none => ""
  | some c => ⟨[c]⟩

/-- Wrapping of a path in its optional quotes, over char lists. -/
def quoteWrap : Option Char → List Char → List Char
  | none, p => p
  | some c, p => c :: (p ++ [c])

/-- One `url(...)` reference as it appears in stylesheet text: the literal
`url(`, the optional quote, the path, the optional quote again, `)`. -/
def refText (qo : Option Char) (p : String) : String :=
  "url(" ++ quoteStr qo ++ p ++ quoteStr qo ++ ")"

/-- One `url(...)` reference of a stylesheet together with the text that
precedes it: `gap` is the stylesheet text before the reference, `quote` its
optional quote character, `path` the referenced path (the capture group). -/
structure CssRef where
  gap : String
  quote : Option Char
  path : String

/-- A stylesheet presented as its references in order: each reference preceded
by its gap text, with `trail` the text after the last reference. -/
def assembleCss : List CssRef → String → String
  | [], trail => trail
  | r :: rest, trail => r.gap ++ refText r.quote r.path ++ assembleCss rest trail

/-- The same stylesheet after the rewrite: every reference replaced by the
canonical `url('assets/<basename>')`, the trail scanned on its own. -/
def rewrittenCss : List CssRef → String → String
  | [], trail => processFontPaths trail "assets/"
  | r :: rest, trail => r.gap ++ urlRepl "assets/" r.path ++ rewrittenCss rest trail

/-- A well-formed reference: its gap starts no `url(` match (also none
straddling into the reference), its quote is absent or a single/double quote,
and its path is a non-empty run without quotes or `)` — the shape the regex's
capture group `[^'")]+` matches. -/
abbrev wellFormedRef (r : CssRef) : Prop :=
  hasSubStr (r.gap ++ "url") "url(" = false ∧
  (r.quote = none ∨ r.quote = some squote ∨ r.quote = some dquote) ∧
  r.path ≠ "" ∧ ∀ c ∈ r.path.data, urlPathChar c = true

theorem data_ne_nil_of_ne_empty {p : String} (h : p ≠ "") : p.data ≠ [] := fun hd =>
  h (str_ext (by simpa using hd))

theorem refText_data (qo : Option Char) (p : String) (tail : List Char) :
    (refText qo p).data ++ tail = urlPat ++ (quoteWrap qo p.data ++ rparen :: tail) := by
  cases qo with
  | none =>
      simp only [refText, quoteStr, quoteWrap, String.data_append, List.append_assoc,
        List.cons_append]
      rfl
  | some c =>
      simp only [refText, quoteStr, quoteWrap, String.data_append, List.append_assoc,
        List.cons_append]
      rfl

/-- C9: the `url(...)` rewriting applies to every `url(...)` reference
anywhere in the aggregated stylesheet — quoted (`url('...')`, `url("...")`)
and unquoted references alike, in any surrounding context (`@font-face` blocks
and e.g. `background-image` declarations are just particular gaps), however
many references the stylesheet holds: each referenced path is replaced by the
flat asset namespace form `url('assets/<basename>')`. -/
theorem processFontPaths_rewrites_every_url (refs : List CssRef) (trail : String)
    (h : ∀ r ∈ refs, wellFormedRef r) :
    processFontPaths (assembleCss refs trail) "assets/" = rewrittenCss refs trail := by
  induction refs with
  | nil => rfl
  | cons r rest ih =>
      obtain ⟨hgap, hq, hp, hchars⟩ := h r (by simp)
      have hpd : r.path.data ≠ [] := data_ne_nil_of_ne_empty hp
      have ihd := congrArg String.data (ih (fun x hx => h x (List.mem_cons_of_mem _ hx)))
      apply str_ext
      have e1 : (assembleCss (r :: rest) trail).data =
          r.gap.data ++ (urlPat ++ (quoteWrap r.quote r.path.data ++ rparen ::
            (assembleCss rest trail).data)) := by
        show (r.gap ++ refText r.quote r.path ++ assembleCss rest trail).data = _
        rw [String.data_append, String.data_append, List.append_assoc, refText_data]
      have hcond : hasSubL urlPat (r.gap.data ++ (urlPat ++ (quoteWrap r.quote r.path.data ++
          rparen :: (assembleCss rest trail).data)).take 3) = false := by
        have ht : (urlPat ++ (quoteWrap r.quote r.path.data ++ rparen ::
            (assembleCss rest trail).data)).take 3 = "url".data := rfl
        rw [ht]
        have hd : (r.gap ++ "url").data = r.gap.data ++ "url".data := String.data_append _ _
        rw [hasSubStr, hd] at hgap
        exact hgap
      show processFontPathsL "assets/" 0 (assembleCss (r :: rest) trail).data = _
      rw [e1, pfp_append_of_no_match _ _ _ hcond]
      have hmatch : processFontPathsL "assets/" 0
          (urlPat ++ (quoteWrap r.quote r.path.data ++ rparen ::
            (assembleCss rest trail).data)) =
          (urlRepl "assets/" ⟨r.path.data⟩).data ++
            processFontPathsL "assets/" 0 (assembleCss rest trail).data := by
        rcases hq with hq0 | hq0 | hq0
        · rw [hq0]
          exact pfp_match_full _ _ _ hpd hchars
        · rw [hq0]
          exact pfp_match_full_quoted _ squote (by decide) _ _ hpd hchars
        · rw [hq0]
          exact pfp_match_full_quoted _ dquote (by decide) _ _ hpd hchars
      rw [hmatch]
      have hpdata : processFontPathsL "assets/" 0 (assembleCss rest trail).data =
          (rewrittenCss rest trail).data := ihd
      rw [hpdata]
      show _ = (r.gap ++ urlRepl "assets/" r.path ++ rewrittenCss rest trail).data
      rw [String.data_append, String.data_append, List.append_assoc]

/-- Witness for C9: a stylesheet holding a single-quoted `@font-face`
reference followed by an unquoted `background-image` reference has both
rewritten into the flat asset namespace. -/
theorem processFontPaths_rewrites_every_url_witness :
    (∀ r ∈ ([⟨"@font-face \x7b src: ", some squote, "fonts/a.ttf"⟩,
             ⟨" \x7d\nbody \x7b background-image: ", none, "images/bg.png"⟩] : List CssRef),
      wellFormedRef r) ∧
    processFontPaths
      (assembleCss
        [⟨"@font-face \x7b src: ", some squote, "fonts/a.ttf"⟩,
         ⟨" \x7d\nbody \x7b background-image: ", none, "images/bg.png"⟩] "; \x7d")
      "assets/" =
    rewrittenCss
      [⟨"@font-face \x7b src: ", some squote, "fonts/a.ttf"⟩,
       ⟨" \x7d\nbody \x7b background-image: ", none, "images/bg.png"⟩] "; \x7d" :=
  ⟨by decide,
    processFontPaths_rewrites_every_url
      [⟨"@font-face \x7b src: ", some squote, "fonts/a.ttf"⟩,
       ⟨" \x7d\nbody \x7b background-image: ", none, "images/bg.png"⟩] "; \x7d" (by decide)⟩

/-- Witness for C8: two identical runs on a one-chapter model agree. -/
theorem createCombinedHtml_deterministic_witness :
    createCombinedHtml "T" "x" [⟨"c1", true, "c1.xhtml", "d/c1.xhtml"⟩]
      (fun p => if p == "d/c1.xhtml" then some (NodeList.cons (.text "A") .nil) else none) =
    createCombinedHtml "T" "x" [⟨"c1", true, "c1.xhtml", "d/c1.xhtml"⟩]
      (fun p => if p == "d/c1.xhtml" then some (NodeList.cons (.text "A") .nil) else none) :=
  createCombinedHtml_deterministic _ _ _ _ _ _ _ _ rfl rfl rfl rfl

end Epub
